import Mathlib

/-!
Verification of `src/ciphers/rail_fence.py` (RailFenceCipher).

The Python code is shallowly embedded: strings become `List Char`, the
Python `int` becomes `Int`, and list indexing follows Python semantics
(negative indices wrap once; anything else raises `IndexError`, which is
modelled by returning `none`).  Each Python function becomes a Lean
function with the same name inside the `RailFenceCipher` namespace.
-/

namespace RailFenceCipher

/-- Python list-index resolution: `l[i]` accepts `-len ≤ i < len`,
with negative `i` counting from the end; anything else is an
`IndexError` (modelled as `none`). -/
def pyIdx (len : Nat) (i : Int) : Option Nat :=
  if 0 ≤ i ∧ i < (len : Int) then some i.toNat
  else if -(len : Int) ≤ i ∧ i < 0 then some (i + len).toNat
  else none

/-- `m[i][j] = x` on a matrix, Python indexing semantics. -/
def pySet2 {α : Type} (m : List (List α)) (i j : Int) (x : α) :
    Option (List (List α)) :=
  match pyIdx m.length i with
  | none => none
  | some k =>
    match m[k]? with
    | none => none
    | some row =>
      match pyIdx row.length j with
      | none => none
      | some l => some (m.set k (row.set l x))

/-- `m[i][j]` on a matrix, Python indexing semantics. -/
def pyGet2 {α : Type} (m : List (List α)) (i j : Int) : Option α :=
  match pyIdx m.length i with
  | none => none
  | some k =>
    match m[k]? with
    | none => none
    | some row =>
      match pyIdx row.length j with
      | none => none
      | some l => row[l]?

/-- `text.replace(" ", "")`: drop every space character. -/
def stripSpaces (text : List Char) : List Char :=
  text.filter (fun c => c ≠ ' ')

/-- The direction update shared by all three zigzag walks in the source:
`if rail == 0: direction = 1; elif rail == rails - 1: direction = -1`. -/
def newDir (rails rail dir : Int) : Int :=
  if rail = 0 then 1 else if rail = rails - 1 then -1 else dir

/-- The marker-placement loop of `encrypt`: walk the remaining
characters, writing each into `fence[rail][col]` and stepping the
zigzag cursor.  `none` models the `IndexError` raised when `rail`
leaves the fence. -/
def fillEncrypt (rails : Int) :
    List Char → Int → Int → Int → List (List (Option Char)) →
    Option (List (List (Option Char)))
  | [], _, _, _, fence => some fence
  | ch :: rest, col, rail, dir, fence =>
    match pySet2 fence rail col (some ch) with
    | none => none
    | some fence' =>
      fillEncrypt rails rest (col + 1) (rail + newDir rails rail dir)
        (newDir rails rail dir) fence'

/-- The row-major read-off of `encrypt`: every non-empty cell, rows top
to bottom, left to right within a row.  (`none` is the `''` marker.) -/
def readRows (fence : List (List (Option Char))) : List Char :=
  (fence.map (fun row => row.filterMap id)).flatten

/-- `RailFenceCipher.encrypt(text, rails)`. -/
def encrypt (text : List Char) (rails : Int) : Option (List Char) :=
  let t := stripSpaces text
  let fence := List.replicate rails.toNat
    (List.replicate t.length (none : Option Char))
  match fillEncrypt rails t 0 0 1 fence with
  | none => none
  | some fence' => some (readRows fence')

/-- Pass 1 of `decrypt`: mark the zigzag cells with `'*'` over a fence
initialised to `'\n'`; the argument counts the remaining columns. -/
def markZigzag (rails : Int) :
    Nat → Int → Int → Int → List (List Char) → Option (List (List Char))
  | 0, _, _, _, fence => some fence
  | cnt + 1, col, rail, dir, fence =>
    match pySet2 fence rail col '*' with
    | none => none
    | some fence' =>
      markZigzag rails cnt (col + 1) (rail + newDir rails rail dir)
        (newDir rails rail dir) fence'

/-- One row of pass 2 of `decrypt`: scan the cells left to right and
replace each `'*'` with the next unconsumed ciphertext character
(`index < len(ciphertext)` in the source becomes "the remainder is
non-empty").  Returns the rewritten row and the remaining characters. -/
def fillCells : List Char → List Char → List Char × List Char
  | [], rest => ([], rest)
  | c :: cs, rest =>
    if c = '*' then
      match rest with
      | r :: rs =>
        let p := fillCells cs rs
        (r :: p.1, p.2)
      | [] =>
        let p := fillCells cs []
        (c :: p.1, p.2)
    else
      let p := fillCells cs rest
      (c :: p.1, p.2)

/-- Pass 2 of `decrypt`: fill the marked cells row by row. -/
def fillFence : List (List Char) → List Char → List (List Char)
  | [], _ => []
  | row :: rows, rest =>
    let p := fillCells row rest
    p.1 :: fillFence rows p.2

/-- Pass 3 of `decrypt`: re-walk the zigzag, reading `fence[rail][col]`
at every column. -/
def readZigzag (rails : Int) :
    Nat → Int → Int → Int → List (List Char) → Option (List Char)
  | 0, _, _, _, _ => some []
  | cnt + 1, col, rail, dir, fence =>
    match pyGet2 fence rail col with
    | none => none
    | some ch =>
      match readZigzag rails cnt (col + 1) (rail + newDir rails rail dir)
          (newDir rails rail dir) fence with
      | none => none
      | some s => some (ch :: s)

/-- `RailFenceCipher.decrypt(ciphertext, rails)`. -/
def decrypt (ciphertext : List Char) (rails : Int) : Option (List Char) :=
  let ct := stripSpaces ciphertext
  let fence := List.replicate rails.toNat (List.replicate ct.length '\n')
  match markZigzag rails ct.length 0 0 1 fence with
  | none => none
  | some marked => readZigzag rails ct.length 0 0 1 (fillFence marked ct)

/-- `RailFenceCipher.transform(text, rails, encrypt)`. -/
def transform (text : List Char) (rails : Int) (enc : Bool) :
    Option (List Char) :=
  if enc then encrypt text rails else decrypt text rails

end RailFenceCipher

namespace RailFenceCipher

/-- One step of the zigzag cursor: the state is `(rail, direction)`
just before a column is processed. -/
def zigStep (rails : Int) (s : Int × Int) : Int × Int :=
  (s.1 + newDir rails s.1 s.2, newDir rails s.1 s.2)

/-- The cursor state before column `c` (the walk starts at
`rail = 0`, `direction = 1`). -/
def zigState (rails : Int) (c : Nat) : Int × Int :=
  (zigStep rails)^[c] (0, 1)

/-- The rail visited at column `c`. -/
def rowOf (rails : Int) (c : Nat) : Int :=
  (zigState rails c).1

/-- The closed-form triangle wave claimed by the spec:
`m = c mod (2r-2)`, row `m` when `m < r`, else `2(r-1) - m`. -/
def zigzagFormula (rails : Int) (c : Nat) : Int :=
  let m : Int := (c : Int) % (2 * (rails - 1))
  if m < rails then m else 2 * (rails - 1) - m

end RailFenceCipher

namespace RailFenceCipher

/-- The triangle wave as a function of `m = c mod (2r-2)` (a `Nat`). -/
def rowFun (rails : Int) (m : Nat) : Int :=
  if (m : Int) < rails then (m : Int) else 2 * (rails - 1) - m

/-- Specification fence for `encrypt` after the first `c` columns have
been placed: `t[j]` sits at row `rowOf j`, column `j`, for `j < c`. -/
def fenceEUpto (rails : Int) (t : List Char) (c : Nat) :
    List (List (Option Char)) :=
  (List.range rails.toNat).map fun (a : Nat) =>
    (List.range t.length).map fun (b : Nat) =>
      if b < c ∧ (a : Int) = rowOf rails b then some (t.getD b ' ') else none

/-- Specification fence for `encrypt`, fully placed. -/
def fenceE (rails : Int) (t : List Char) : List (List (Option Char)) :=
  (List.range rails.toNat).map fun (a : Nat) =>
    (List.range t.length).map fun (b : Nat) =>
      if (a : Int) = rowOf rails b then some (t.getD b ' ') else none

/-- Specification mask built by `decrypt`'s first pass, after `c`
columns. -/
def fenceMUpto (rails : Int) (n c : Nat) : List (List Char) :=
  (List.range rails.toNat).map fun (a : Nat) =>
    (List.range n).map fun (b : Nat) =>
      if b < c ∧ (a : Int) = rowOf rails b then '*' else '\n'

/-- Specification mask built by `decrypt`'s first pass, complete. -/
def fenceM (rails : Int) (n : Nat) : List (List Char) :=
  (List.range rails.toNat).map fun (a : Nat) =>
    (List.range n).map fun (b : Nat) =>
      if (a : Int) = rowOf rails b then '*' else '\n'

/-- The fence `decrypt` reads from when fed `encrypt`'s output:
the zigzag cells hold the original characters. -/
def fenceF (rails : Int) (t : List Char) : List (List Char) :=
  (List.range rails.toNat).map fun (a : Nat) =>
    (List.range t.length).map fun (b : Nat) =>
      if (a : Int) = rowOf rails b then t.getD b ' ' else '\n'

/-- The row-major segment of row `a`: the characters of `t` whose
column lands on rail `a`. -/
def rowSeg (rails : Int) (t : List Char) (a : Nat) : List Char :=
  ((List.range t.length).filter
    (fun (b : Nat) => decide ((a : Int) = rowOf rails b))).map fun (b : Nat) => t.getD b ' '

/-- Arguments of one `transform` call, for stating that calls in a
sequence do not interact. -/
structure CallArgs where
  text : List Char
  rails : Int
  enc : Bool

/-- A sequence of `transform` calls executed in order. -/
def runBatch (calls : List CallArgs) : List (Option (List Char)) :=
  calls.map fun cl => transform cl.text cl.rails cl.enc

lemma zigState_succ (rails : Int) (c : Nat) :
    zigState rails (c + 1) = zigStep rails (zigState rails c) :=
  Function.iterate_succ_apply' _ _ _

lemma zigStep_inv (rails : Int) (h2 : 2 ≤ rails) (s : Int × Int)
    (h0 : 0 ≤ s.1) (h1 : s.1 < rails) (hd : s.2 = 1 ∨ s.2 = -1) :
    0 ≤ (zigStep rails s).1 ∧ (zigStep rails s).1 < rails ∧
      ((zigStep rails s).2 = 1 ∨ (zigStep rails s).2 = -1) := by
  simp only [zigStep, newDir]
  split_ifs <;> simp_all <;> omega

/-- For `rails ≥ 2` the cursor stays on the fence and the direction is
always `±1`. -/
lemma zigState_inv (rails : Int) (h2 : 2 ≤ rails) (c : Nat) :
    0 ≤ (zigState rails c).1 ∧ (zigState rails c).1 < rails ∧
      ((zigState rails c).2 = 1 ∨ (zigState rails c).2 = -1) := by
  induction c with
  | zero =>
    have h : zigState rails 0 = (0, 1) := rfl
    rw [h]
    exact ⟨le_refl 0, by omega, Or.inl rfl⟩
  | succ k ih =>
    rw [zigState_succ]
    exact zigStep_inv rails h2 _ ih.1 ih.2.1 ih.2.2

lemma zigStep_fst (rails : Int) (s : Int × Int) :
    (zigStep rails s).1 = s.1 + newDir rails s.1 s.2 := rfl

lemma zigStep_snd (rails : Int) (s : Int × Int) :
    (zigStep rails s).2 = newDir rails s.1 s.2 := rfl

/-- Closed form of the walk: writing `R = rails.toNat`, `p = 2(R-1)`
and `m = c % p`, the rail at column `c` is `rowFun m`, and the
direction is `1` on the descending half `1 ≤ m < R` and `-1` on the
ascending half `R ≤ m`. -/
lemma zigState_mod (rails : Int) (h2 : 2 ≤ rails) (c : Nat) :
    (zigState rails c).1 = rowFun rails (c % (2 * (rails.toNat - 1))) ∧
    (1 ≤ c % (2 * (rails.toNat - 1)) → c % (2 * (rails.toNat - 1)) < rails.toNat →
      (zigState rails c).2 = 1) ∧
    (rails.toNat ≤ c % (2 * (rails.toNat - 1)) → (zigState rails c).2 = -1) := by
  have hcast : ((rails.toNat : Int)) = rails := Int.toNat_of_nonneg (by omega)
  set R := rails.toNat with hRdef
  have hR2 : 2 ≤ R := by omega
  have hp2 : 2 ≤ 2 * (R - 1) := by omega
  induction c with
  | zero =>
    refine ⟨?_, ?_, ?_⟩
    · rw [Nat.zero_mod]
      show (0 : Int) = rowFun rails 0
      simp only [rowFun]
      rw [if_pos (by push_cast; omega)]
      simp
    · intro h _
      rw [Nat.zero_mod] at h
      omega
    · intro h
      rw [Nat.zero_mod] at h
      omega
  | succ k ih =>
    obtain ⟨hrow, hd1, hd2⟩ := ih
    have hmlt : k % (2 * (R - 1)) < 2 * (R - 1) := Nat.mod_lt _ (by omega)
    have hms : (k + 1) % (2 * (R - 1)) =
        if k % (2 * (R - 1)) + 1 = 2 * (R - 1) then 0
        else k % (2 * (R - 1)) + 1 := by
      rw [Nat.add_mod, Nat.mod_eq_of_lt (show 1 < 2 * (R - 1) by omega)]
      split_ifs with hc
      · rw [hc, Nat.mod_self]
      · exact Nat.mod_eq_of_lt (by omega)
    set m := k % (2 * (R - 1)) with hmdef
    rw [zigState_succ]
    by_cases hm0 : m = 0
    · -- at the top of a period: rail 0, step down to rail 1
      have hs1 : (zigState rails k).1 = 0 := by
        rw [hrow, hm0]
        simp only [rowFun]
        rw [if_pos (by push_cast; omega)]
        simp
      have hm' : (k + 1) % (2 * (R - 1)) = 1 := by
        rw [hms, if_neg (by omega)]
        omega
      have hnd : newDir rails (zigState rails k).1 (zigState rails k).2 = 1 := by
        simp [newDir, hs1]
      refine ⟨?_, ?_, ?_⟩
      · rw [zigStep_fst, hnd, hs1, hm']
        simp only [rowFun]
        rw [if_pos (by push_cast; omega)]
        simp
      · intro _ _
        rw [zigStep_snd, hnd]
      · intro hge
        rw [hm'] at hge
        omega
    · by_cases hmR : m + 1 < R
      · -- strictly inside the descending half
        have hs1 : (zigState rails k).1 = (m : Int) := by
          rw [hrow]
          simp only [rowFun]
          rw [if_pos (by omega)]
        have hd : (zigState rails k).2 = 1 := hd1 (by omega) (by omega)
        have hnd : newDir rails (zigState rails k).1 (zigState rails k).2 = 1 := by
          simp only [newDir]
          rw [hs1, hd, if_neg (by omega), if_neg (by omega)]
        have hm' : (k + 1) % (2 * (R - 1)) = m + 1 := by
          rw [hms, if_neg (by omega)]
        refine ⟨?_, ?_, ?_⟩
        · rw [zigStep_fst, hnd, hs1, hm']
          simp only [rowFun]
          rw [if_pos (by omega)]
          push_cast
          ring
        · intro _ _
          rw [zigStep_snd, hnd]
        · intro hge
          rw [hm'] at hge
          omega
      · by_cases hmR2 : m + 1 = R
        · -- at the bottom rail: direction flips, step up to rail R-2
          have hs1 : (zigState rails k).1 = (m : Int) := by
            rw [hrow]
            simp only [rowFun]
            rw [if_pos (by omega)]
          have hnd : newDir rails (zigState rails k).1 (zigState rails k).2 = -1 := by
            simp only [newDir]
            rw [hs1, if_neg (by omega), if_pos (by omega)]
          refine ⟨?_, ?_, ?_⟩
          · rw [zigStep_fst, hnd, hs1, hms]
            by_cases hc : m + 1 = 2 * (R - 1)
            · rw [if_pos hc]
              simp only [rowFun]
              rw [if_pos (by push_cast; omega)]
              push_cast
              omega
            · rw [if_neg hc]
              simp only [rowFun]
              rw [if_neg (by omega)]
              push_cast
              omega
          · intro h1 h2
            rw [hms] at h1 h2
            split_ifs at h1 h2 <;> omega
          · intro _
            rw [zigStep_snd, hnd]
        · -- ascending half: R ≤ m
          have hRm : R ≤ m := by omega
          have hd : (zigState rails k).2 = -1 := hd2 (by omega)
          have hs1 : (zigState rails k).1 = 2 * (rails - 1) - m := by
            rw [hrow]
            simp only [rowFun]
            rw [if_neg (by omega)]
          by_cases hmp : m + 1 = 2 * (R - 1)
          · -- bottom of the ascent: step back onto rail 0
            have hR3 : 3 ≤ R := by omega
            have hs1' : (zigState rails k).1 = 1 := by
              rw [hs1]
              omega
            have hnd : newDir rails (zigState rails k).1 (zigState rails k).2 = -1 := by
              simp only [newDir]
              rw [hs1', if_neg (by omega), if_neg (by omega), hd]
            have hm' : (k + 1) % (2 * (R - 1)) = 0 := by
              rw [hms, if_pos hmp]
            refine ⟨?_, ?_, ?_⟩
            · rw [zigStep_fst, hnd, hs1', hm']
              simp only [rowFun]
              rw [if_pos (by push_cast; omega)]
              simp
            · intro h1 _
              rw [hm'] at h1
              omega
            · intro _
              rw [zigStep_snd, hnd]
          · -- strictly inside the ascending half
            have hnd : newDir rails (zigState rails k).1 (zigState rails k).2 = -1 := by
              simp only [newDir]
              rw [hs1, if_neg (by omega), if_neg (by omega), hd]
            have hm' : (k + 1) % (2 * (R - 1)) = m + 1 := by
              rw [hms, if_neg hmp]
            refine ⟨?_, ?_, ?_⟩
            · rw [zigStep_fst, hnd, hs1, hm']
              simp only [rowFun]
              rw [if_neg (by omega)]
              push_cast
              ring
            · intro h1 h2
              rw [hm'] at h2
              omega
            · intro _
              rw [zigStep_snd, hnd]

/-- The rail of column `c` equals the spec's closed-form triangle wave. -/
lemma rowOf_eq_zigzagFormula (rails : Int) (h2 : 2 ≤ rails) (c : Nat) :
    rowOf rails c = zigzagFormula rails c := by
  have hcast : ((rails.toNat : Int)) = rails := Int.toNat_of_nonneg (by omega)
  have h1R : 1 ≤ rails.toNat := by omega
  have hmod : ((c % (2 * (rails.toNat - 1)) : Nat) : Int) =
      (c : Int) % (2 * (rails - 1)) := by
    push_cast [Nat.cast_sub h1R]
    rw [hcast]
  rw [rowOf, (zigState_mod rails h2 c).1]
  simp only [rowFun, zigzagFormula]
  rw [hmod]

/-- Bounds for the rail of a column, `rails ≥ 2`. -/
lemma rowOf_bounds (rails : Int) (h2 : 2 ≤ rails) (c : Nat) :
    0 ≤ rowOf rails c ∧ rowOf rails c < rails :=
  ⟨(zigState_inv rails h2 c).1, (zigState_inv rails h2 c).2.1⟩

lemma pyIdx_in_range (n : Nat) (i : Int) (h0 : 0 ≤ i) (h1 : i < (n : Int)) :
    pyIdx n i = some i.toNat := by
  simp only [pyIdx]
  rw [if_pos ⟨h0, h1⟩]

lemma set_mapRange {α : Type} (N : Nat) (h : Nat → α) (j : Nat) (hj : j < N) (x : α) :
    ((List.range N).map h).set j x =
      (List.range N).map fun b => if b = j then x else h b := by
  apply List.ext_getElem?
  intro n
  by_cases hn : n < N
  · by_cases hnj : n = j
    · subst hnj
      rw [List.getElem?_set_self (by simp [hn])]
      simp [List.getElem?_map, List.getElem?_range hn, hn]
    · rw [List.getElem?_set_ne (by omega)]
      simp [List.getElem?_map, List.getElem?_range hn, hnj]
  · rw [List.getElem?_set_ne (by omega)]
    have hnone : (List.range N)[n]? = none := by
      rw [List.getElem?_eq_none]
      simpa using Nat.le_of_not_lt hn
    simp [List.getElem?_map, hnone]

/-- Effect of `fence[i][j] = x` on a matrix in map-over-range form. -/
lemma pySet2_mapRange {α : Type} (R N : Nat) (g : Nat → Nat → α)
    (i : Int) (j : Nat) (hi0 : 0 ≤ i) (hiR : i < (R : Int)) (hjN : j < N)
    (x : α) :
    pySet2 ((List.range R).map fun a => (List.range N).map fun b => g a b)
      i (j : Int) x =
      some ((List.range R).map fun (a : Nat) => (List.range N).map fun (b : Nat) =>
        if (a : Int) = i ∧ b = j then x else g a b) := by
  have hkR : i.toNat < R := by omega
  have h1 : pyIdx ((List.range R).map fun a =>
      (List.range N).map fun b => g a b).length i = some i.toNat := by
    rw [List.length_map, List.length_range]
    exact pyIdx_in_range R i hi0 hiR
  have h2 : ((List.range R).map fun a =>
      (List.range N).map fun b => g a b)[i.toNat]? =
      some ((List.range N).map fun b => g i.toNat b) := by
    simp [List.getElem?_map, List.getElem?_range hkR]
  have h3 : pyIdx ((List.range N).map fun b => g i.toNat b).length
      (j : Int) = some j := by
    rw [List.length_map, List.length_range]
    rw [pyIdx_in_range N (j : Int) (Int.natCast_nonneg j) (by omega)]
    simp
  simp only [pySet2, h1, h2, h3]
  rw [set_mapRange N _ j hjN, set_mapRange R _ i.toNat hkR]
  refine congrArg some (List.map_congr_left ?_)
  intro a ha
  rw [List.mem_range] at ha
  by_cases hai : a = i.toNat
  · have hca : (a : Int) = i := by omega
    rw [if_pos hai]
    refine List.map_congr_left ?_
    intro b _
    simp [hca, hai, hi0]
  · rw [if_neg hai]
    refine List.map_congr_left ?_
    intro b _
    have : ¬((a : Int) = i) := by omega
    simp [this]

/-- Reading `fence[i][j]` from a matrix in map-over-range form. -/
lemma pyGet2_mapRange {α : Type} (R N : Nat) (g : Nat → Nat → α)
    (i : Int) (j : Nat) (hi0 : 0 ≤ i) (hiR : i < (R : Int)) (hjN : j < N) :
    pyGet2 ((List.range R).map fun a => (List.range N).map fun b => g a b)
      i (j : Int) = some (g i.toNat j) := by
  have hkR : i.toNat < R := by omega
  have h1 : pyIdx ((List.range R).map fun a =>
      (List.range N).map fun b => g a b).length i = some i.toNat := by
    rw [List.length_map, List.length_range]
    exact pyIdx_in_range R i hi0 hiR
  have h2 : ((List.range R).map fun a =>
      (List.range N).map fun b => g a b)[i.toNat]? =
      some ((List.range N).map fun b => g i.toNat b) := by
    simp [List.getElem?_map, List.getElem?_range hkR]
  have h3 : pyIdx ((List.range N).map fun b => g i.toNat b).length
      (j : Int) = some j := by
    rw [List.length_map, List.length_range]
    rw [pyIdx_in_range N (j : Int) (Int.natCast_nonneg j) (by omega)]
    simp
  simp only [pyGet2, h1, h2, h3]
  simp [List.getElem?_map, List.getElem?_range hjN]

lemma getElem?_of_drop_cons {t cs : List Char} {c : Nat} {ch : Char}
    (h : t.drop c = ch :: cs) : t[c]? = some ch := by
  have := List.getElem?_drop t c 0
  rw [h] at this
  simpa using this.symm

lemma getD_of_drop_cons {t cs : List Char} {c : Nat} {ch : Char}
    (h : t.drop c = ch :: cs) : t.getD c ' ' = ch := by
  have hc : c < t.length := by
    by_contra hc
    rw [List.drop_eq_nil_of_le (Nat.le_of_not_lt hc)] at h
    cases h
  have h0 : t[c]? = some ch := by
    have := List.getElem?_drop t c 0
    rw [h] at this
    simpa using this.symm
  rw [List.getD_eq_getElem?_getD, h0]
  rfl

lemma drop_succ_of_drop_cons {t cs : List Char} {c : Nat} {ch : Char}
    (h : t.drop c = ch :: cs) : t.drop (c + 1) = cs := by
  rw [← List.tail_drop, h]
  rfl

lemma lt_length_of_drop_cons {t cs : List Char} {c : Nat} {ch : Char}
    (h : t.drop c = ch :: cs) : c < t.length := by
  by_contra hc
  rw [List.drop_eq_nil_of_le (Nat.le_of_not_lt hc)] at h
  cases h

/-- The placement loop of `encrypt` builds exactly the specification
fence, one column per character. -/
lemma fillEncrypt_upto (rails : Int) (h2 : 2 ≤ rails) (t : List Char) :
    ∀ (cs : List Char) (c : Nat), t.drop c = cs →
    fillEncrypt rails cs (c : Int) (zigState rails c).1 (zigState rails c).2
      (fenceEUpto rails t c) = some (fenceEUpto rails t (c + cs.length)) := by
  intro cs
  induction cs with
  | nil =>
    intro c _
    simp [fillEncrypt]
  | cons ch cs' ih =>
    intro c hdrop
    have hcN : c < t.length := lt_length_of_drop_cons hdrop
    have hch : t.getD c ' ' = ch := getD_of_drop_cons hdrop
    have hch2 : t[c]? = some ch := getElem?_of_drop_cons hdrop
    have hro : rowOf rails c = (zigState rails c).1 := rfl
    have hrow0 : 0 ≤ (zigState rails c).1 := (zigState_inv rails h2 c).1
    have hrowR : (zigState rails c).1 < ((rails.toNat : Nat) : Int) := by
      have := (zigState_inv rails h2 c).2.1
      omega
    have hset := pySet2_mapRange rails.toNat t.length
      (fun a b => if b < c ∧ (a : Int) = rowOf rails b
        then some (t.getD b ' ') else none)
      ((zigState rails c).1) c hrow0 hrowR hcN (some ch)
    have hfence : ((List.range rails.toNat).map fun (a : Nat) =>
        (List.range t.length).map fun (b : Nat) =>
          if (a : Int) = (zigState rails c).1 ∧ b = c then some ch
          else if b < c ∧ (a : Int) = rowOf rails b
            then some (t.getD b ' ') else none) =
        fenceEUpto rails t (c + 1) := by
      simp only [fenceEUpto]
      refine List.map_congr_left ?_
      intro a _
      refine List.map_congr_left ?_
      intro b _
      by_cases hbc : b = c
      · subst hbc
        by_cases har : (a : Int) = (zigState rails b).1
        · simp [har, hch, hch2, hro]
        · simp [har, hro, Nat.lt_irrefl]
      · have hblt : (b < c + 1) ↔ (b < c) := by omega
        simp only [hbc, and_false, if_false, hblt]
    have hstep : (zigState rails c).1 + newDir rails (zigState rails c).1
        (zigState rails c).2 = (zigState rails (c + 1)).1 := by
      rw [zigState_succ, zigStep_fst]
    have hstep2 : newDir rails (zigState rails c).1 (zigState rails c).2 =
        (zigState rails (c + 1)).2 := by
      rw [zigState_succ, zigStep_snd]
    have hcol : ((c : Int) + 1) = ((c + 1 : Nat) : Int) := by push_cast; ring
    have harith : c + 1 + cs'.length = c + (ch :: cs').length := by
      simp only [List.length_cons]
      omega
    simp only [fillEncrypt, fenceEUpto, hset]
    rw [hfence, hstep, hstep2, hcol, ih (c + 1) (drop_succ_of_drop_cons hdrop),
      harith]
    rfl

lemma fenceEUpto_zero (rails : Int) (t : List Char) :
    fenceEUpto rails t 0 = List.replicate rails.toNat
      (List.replicate t.length (none : Option Char)) := by
  simp [fenceEUpto, List.map_const']

lemma fenceEUpto_full (rails : Int) (t : List Char) :
    fenceEUpto rails t t.length = fenceE rails t := by
  simp only [fenceEUpto, fenceE]
  refine List.map_congr_left ?_
  intro a _
  refine List.map_congr_left ?_
  intro b hb
  rw [List.mem_range] at hb
  simp [hb]

/-- For `rails ≥ 2`, `encrypt` succeeds and returns the row-major
read-off of the specification fence. -/
lemma encrypt_eq_readRows_fenceE (rails : Int) (h2 : 2 ≤ rails)
    (text : List Char) :
    encrypt text rails = some (readRows (fenceE rails (stripSpaces text))) := by
  have h := fillEncrypt_upto rails h2 (stripSpaces text) (stripSpaces text) 0 rfl
  rw [fenceEUpto_zero] at h
  rw [show (zigState rails 0).1 = 0 from rfl,
    show (zigState rails 0).2 = 1 from rfl] at h
  rw [show ((0 : Nat) : Int) = (0 : Int) from rfl] at h
  rw [Nat.zero_add, fenceEUpto_full] at h
  simp only [encrypt, h]

lemma filterMap_ite_some {α : Type} (P : Nat → Prop) [DecidablePred P]
    (g : Nat → α) (l : List Nat) :
    l.filterMap (fun b => if P b then some (g b) else none) =
      (l.filter (fun b => decide (P b))).map g := by
  induction l with
  | nil => rfl
  | cons x xs ih => by_cases h : P x <;> simp [h, ih]

lemma readRows_fenceE (rails : Int) (t : List Char) :
    readRows (fenceE rails t) =
      ((List.range rails.toNat).map (rowSeg rails t)).flatten := by
  simp only [readRows, fenceE, List.map_map]
  congr 1
  refine List.map_congr_left ?_
  intro a _
  show List.filterMap id ((List.range t.length).map fun (b : Nat) =>
      if (a : Int) = rowOf rails b then some (t.getD b ' ') else none) =
    rowSeg rails t a
  rw [List.filterMap_map]
  exact filterMap_ite_some (fun b => (a : Int) = rowOf rails b) _ _

lemma map_getD_range (t : List Char) :
    (List.range t.length).map (fun b => t.getD b ' ') = t := by
  apply List.ext_getElem?
  intro n
  by_cases h : n < t.length
  · rw [List.getElem?_map, List.getElem?_range h]
    simp [List.getD_eq_getElem?_getD, List.getElem?_eq_getElem h]
  · rw [List.getElem?_eq_none (by simpa using Nat.le_of_not_lt h)]
    rw [List.getElem?_eq_none (by simpa using Nat.le_of_not_lt h)]

lemma count_flatten_char {α : Type} [DecidableEq α] (x : α) (L : List (List α)) :
    List.count x L.flatten = (L.map (List.count x)).sum := by
  induction L with
  | nil => rfl
  | cons l ls ih => simp [List.count_append, ih]

lemma count_filter_ite {α : Type} [DecidableEq α] (x : α) (p : α → Bool)
    (l : List α) :
    List.count x (List.filter p l) = if p x then List.count x l else 0 := by
  by_cases h : p x
  · simp [h, List.count_filter h]
  · rw [if_neg h, List.count_eq_zero]
    intro hm
    have := List.of_mem_filter hm
    simp [h] at this

lemma count_range_ite (x n : Nat) :
    List.count x (List.range n) = if x < n then 1 else 0 := by
  induction n with
  | zero => simp
  | succ k ih =>
    rw [List.range_succ, List.count_append, ih]
    simp only [List.count_cons, List.count_nil]
    split_ifs <;> simp_all <;> omega

lemma sum_map_range_ite (k c R : Nat) :
    ((List.range R).map (fun i => if i = k then c else 0)).sum =
      if k < R then c else 0 := by
  induction R with
  | zero => simp
  | succ n ih =>
    rw [List.range_succ, List.map_append, List.sum_append, ih]
    simp only [List.map_cons, List.map_nil, List.sum_cons, List.sum_nil]
    split_ifs <;> simp_all <;> omega

/-- The zigzag rows partition the columns: concatenating the per-row
column lists is a permutation of all columns. -/
lemma flatten_filter_perm (R N : Nat) (key : Nat → Int)
    (hkey : ∀ b, b < N → 0 ≤ key b ∧ key b < R) :
    ((List.range R).map fun (a : Nat) => (List.range N).filter
      (fun b => decide ((a : Int) = key b))).flatten.Perm (List.range N) := by
  rw [List.perm_iff_count]
  intro x
  rw [count_flatten_char, List.map_map]
  have hterm : ∀ a ∈ List.range R,
      (List.count x ∘ fun (a : Nat) => (List.range N).filter
        (fun b => decide ((a : Int) = key b))) a =
      (fun i => if i = (key x).toNat then
        (if x < N ∧ 0 ≤ key x then 1 else 0) else 0) a := by
    intro a ha
    rw [List.mem_range] at ha
    simp only [Function.comp]
    rw [count_filter_ite, count_range_ite]
    by_cases hx : x < N
    · obtain ⟨hk0, _⟩ := hkey x hx
      by_cases hax : (a : Int) = key x
      · have : a = (key x).toNat := by omega
        simp [hax, this, hx, hk0]
      · have : ¬(a = (key x).toNat) := by omega
        simp [hax, this]
    · simp [hx]
  rw [List.map_congr_left hterm, sum_map_range_ite, count_range_ite]
  by_cases hx : x < N
  · obtain ⟨hk0, hkR⟩ := hkey x hx
    have : (key x).toNat < R := by omega
    simp [hx, hk0, this]
  · simp [hx]

/-- For `rails ≥ 2` the concatenated row segments are a permutation of
the text. -/
lemma flatten_rowSeg_perm (rails : Int) (h2 : 2 ≤ rails) (t : List Char) :
    ((List.range rails.toNat).map (rowSeg rails t)).flatten.Perm t := by
  have hmap : ((List.range rails.toNat).map (rowSeg rails t)) =
      (((List.range rails.toNat).map fun (a : Nat) =>
        (List.range t.length).filter
          (fun b => decide ((a : Int) = rowOf rails b))).map
        (List.map (fun b => t.getD b ' '))) := by
    rw [List.map_map]
    rfl
  rw [hmap, ← List.map_flatten]
  have hperm := flatten_filter_perm rails.toNat t.length (rowOf rails)
    (fun b _ => by
      have h := rowOf_bounds rails h2 b
      constructor
      · exact h.1
      · have : ((rails.toNat : Nat) : Int) = rails :=
          Int.toNat_of_nonneg (by omega)
        omega)
  have := hperm.map (fun b => t.getD b ' ')
  rw [map_getD_range] at this
  exact this

lemma fenceMUpto_zero (rails : Int) (n : Nat) :
    fenceMUpto rails n 0 = List.replicate rails.toNat
      (List.replicate n '\n') := by
  simp [fenceMUpto, List.map_const']

lemma fenceMUpto_full (rails : Int) (n : Nat) :
    fenceMUpto rails n n = fenceM rails n := by
  simp only [fenceMUpto, fenceM]
  refine List.map_congr_left ?_
  intro a _
  refine List.map_congr_left ?_
  intro b hb
  rw [List.mem_range] at hb
  simp [hb]

/-- The marking loop of `decrypt` builds exactly the specification
mask, one column per step. -/
lemma markZigzag_upto (rails : Int) (h2 : 2 ≤ rails) (n : Nat) :
    ∀ (cnt c : Nat), c + cnt = n →
    markZigzag rails cnt (c : Int) (zigState rails c).1 (zigState rails c).2
      (fenceMUpto rails n c) = some (fenceMUpto rails n (c + cnt)) := by
  intro cnt
  induction cnt with
  | zero =>
    intro c _
    simp [markZigzag]
  | succ k ih =>
    intro c hc
    have hcN : c < n := by omega
    have hro : rowOf rails c = (zigState rails c).1 := rfl
    have hrow0 : 0 ≤ (zigState rails c).1 := (zigState_inv rails h2 c).1
    have hrowR : (zigState rails c).1 < ((rails.toNat : Nat) : Int) := by
      have h := (zigState_inv rails h2 c).2.1
      have hcast : ((rails.toNat : Nat) : Int) = rails :=
        Int.toNat_of_nonneg (by omega)
      omega
    have hset := pySet2_mapRange rails.toNat n
      (fun a b => if b < c ∧ (a : Int) = rowOf rails b then '*' else '\n')
      ((zigState rails c).1) c hrow0 hrowR hcN '*'
    have hfence : ((List.range rails.toNat).map fun (a : Nat) =>
        (List.range n).map fun (b : Nat) =>
          if (a : Int) = (zigState rails c).1 ∧ b = c then '*'
          else if b < c ∧ (a : Int) = rowOf rails b then '*' else '\n') =
        fenceMUpto rails n (c + 1) := by
      simp only [fenceMUpto]
      refine List.map_congr_left ?_
      intro a _
      refine List.map_congr_left ?_
      intro b _
      by_cases hbc : b = c
      · subst hbc
        by_cases har : (a : Int) = (zigState rails b).1
        · simp [har, hro]
        · simp [har, hro, Nat.lt_irrefl]
      · have hblt : (b < c + 1) ↔ (b < c) := by omega
        simp only [hbc, and_false, if_false, hblt]
    have hstep : (zigState rails c).1 + newDir rails (zigState rails c).1
        (zigState rails c).2 = (zigState rails (c + 1)).1 := by
      rw [zigState_succ, zigStep_fst]
    have hstep2 : newDir rails (zigState rails c).1 (zigState rails c).2 =
        (zigState rails (c + 1)).2 := by
      rw [zigState_succ, zigStep_snd]
    have hcol : ((c : Int) + 1) = ((c + 1 : Nat) : Int) := by push_cast; ring
    have harith : c + 1 + k = c + (k + 1) := by omega
    simp only [markZigzag, fenceMUpto, hset]
    rw [hfence, hstep, hstep2, hcol, ih (c + 1) (by omega), harith]
    rfl

lemma fillCells_spec (g : Nat → Char) (P : Nat → Prop) [DecidablePred P] :
    ∀ (js : List Nat) (rest : List Char),
    fillCells (js.map fun b => if P b then '*' else '\n')
      (((js.filter (fun b => decide (P b))).map g) ++ rest) =
      ((js.map fun b => if P b then g b else '\n'), rest) := by
  intro js
  induction js with
  | nil =>
    intro rest
    simp [fillCells]
  | cons j js ih =>
    intro rest
    by_cases h : P j
    · simp [h, List.filter_cons, fillCells, ih]
    · have hne : ('\n' : Char) ≠ '*' := by decide
      simp [h, List.filter_cons, fillCells, ih, hne]

lemma fillFence_spec (g : Nat → Char) (N : Nat) (Q : Nat → Nat → Prop)
    [∀ a, DecidablePred (Q a)] :
    ∀ (rs : List Nat) (rest : List Char),
    fillFence (rs.map fun (a : Nat) =>
        (List.range N).map fun (b : Nat) => if Q a b then '*' else '\n')
      (((rs.map fun (a : Nat) =>
        ((List.range N).filter fun b => decide (Q a b)).map g).flatten) ++ rest) =
      rs.map fun (a : Nat) =>
        (List.range N).map fun (b : Nat) => if Q a b then g b else '\n' := by
  intro rs
  induction rs with
  | nil =>
    intro rest
    simp [fillFence]
  | cons a rs ih =>
    intro rest
    simp only [List.map_cons, List.flatten_cons, List.append_assoc]
    simp only [fillFence, fillCells_spec g (Q a) (List.range N)]
    simp [ih]

/-- The read-out walk of `decrypt` over the filled fence recovers the
text column by column. -/
lemma readZigzag_upto (rails : Int) (h2 : 2 ≤ rails) (t : List Char) :
    ∀ (cnt c : Nat), c + cnt = t.length →
    readZigzag rails cnt (c : Int) (zigState rails c).1 (zigState rails c).2
      (fenceF rails t) = some (t.drop c) := by
  intro cnt
  induction cnt with
  | zero =>
    intro c hc
    have hcl : c = t.length := by omega
    subst hcl
    simp [readZigzag, List.drop_length]
  | succ k ih =>
    intro c hc
    have hcN : c < t.length := by omega
    have hro : rowOf rails c = (zigState rails c).1 := rfl
    have hrow0 : 0 ≤ (zigState rails c).1 := (zigState_inv rails h2 c).1
    have hrowR : (zigState rails c).1 < ((rails.toNat : Nat) : Int) := by
      have h := (zigState_inv rails h2 c).2.1
      have hcast : ((rails.toNat : Nat) : Int) = rails :=
        Int.toNat_of_nonneg (by omega)
      omega
    have hget := pyGet2_mapRange rails.toNat t.length
      (fun a b => if (a : Int) = rowOf rails b then t.getD b ' ' else '\n')
      ((zigState rails c).1) c hrow0 hrowR hcN
    dsimp only at hget
    have hval : (if (((zigState rails c).1.toNat : Nat) : Int) = rowOf rails c
        then t.getD c ' ' else '\n') = t.getD c ' ' := by
      rw [if_pos]
      rw [hro]
      omega
    rw [hval] at hget
    have hstep : (zigState rails c).1 + newDir rails (zigState rails c).1
        (zigState rails c).2 = (zigState rails (c + 1)).1 := by
      rw [zigState_succ, zigStep_fst]
    have hstep2 : newDir rails (zigState rails c).1 (zigState rails c).2 =
        (zigState rails (c + 1)).2 := by
      rw [zigState_succ, zigStep_snd]
    have hcol : ((c : Int) + 1) = ((c + 1 : Nat) : Int) := by push_cast; ring
    have hgetD : t.getD c ' ' = t[c] := by
      simp [List.getD_eq_getElem?_getD, List.getElem?_eq_getElem hcN]
    have ihh := ih (c + 1) (by omega)
    simp only [fenceF] at ihh
    simp only [readZigzag, fenceF, hget]
    rw [hstep, hstep2, hcol, ihh]
    rw [hgetD]
    show some (t[c] :: List.drop (c + 1) t) = some (List.drop c t)
    rw [← List.drop_eq_getElem_cons hcN]

lemma stripSpaces_eq_self {t : List Char} (ht : ' ' ∉ t) :
    stripSpaces t = t := by
  rw [stripSpaces, List.filter_eq_self]
  intro a ha
  have hne : a ≠ ' ' := by
    intro he
    subst he
    exact ht ha
  simpa using hne

lemma not_mem_stripSpaces (t : List Char) : ' ' ∉ stripSpaces t := by
  intro h
  rw [stripSpaces, List.mem_filter] at h
  simpa using h.2

lemma stripSpaces_idem (t : List Char) :
    stripSpaces (stripSpaces t) = stripSpaces t :=
  stripSpaces_eq_self (not_mem_stripSpaces t)

/-- For `rails ≥ 2`, decrypting the concatenated row segments of a
space-free text recovers the text. -/
lemma decrypt_flattenSegs (rails : Int) (h2 : 2 ≤ rails) (t : List Char)
    (ht : ' ' ∉ t) :
    decrypt (((List.range rails.toNat).map (rowSeg rails t)).flatten) rails =
      some t := by
  have hperm : (((List.range rails.toNat).map (rowSeg rails t)).flatten).Perm t :=
    flatten_rowSeg_perm rails h2 t
  have hlen : (((List.range rails.toNat).map (rowSeg rails t)).flatten).length =
      t.length := hperm.length_eq
  have hstrip : stripSpaces
      (((List.range rails.toNat).map (rowSeg rails t)).flatten) =
      ((List.range rails.toNat).map (rowSeg rails t)).flatten :=
    stripSpaces_eq_self (fun h => ht (hperm.mem_iff.mp h))
  have hmark := markZigzag_upto rails h2 t.length t.length 0 (by omega)
  rw [fenceMUpto_zero] at hmark
  rw [show (zigState rails 0).1 = 0 from rfl,
    show (zigState rails 0).2 = 1 from rfl] at hmark
  rw [show ((0 : Nat) : Int) = (0 : Int) from rfl] at hmark
  rw [Nat.zero_add, fenceMUpto_full] at hmark
  have hsegs : (List.range rails.toNat).map (rowSeg rails t) =
      (List.range rails.toNat).map (fun (a : Nat) =>
        ((List.range t.length).filter
          (fun b => decide ((a : Int) = rowOf rails b))).map
            (fun b => t.getD b ' ')) := rfl
  have hfill := fillFence_spec (fun b => t.getD b ' ') t.length
    (fun a b => (a : Int) = rowOf rails b) (List.range rails.toNat) []
  rw [List.append_nil] at hfill
  have hfenceM : fenceM rails t.length =
      (List.range rails.toNat).map (fun (a : Nat) =>
        (List.range t.length).map
          (fun (b : Nat) => if (a : Int) = rowOf rails b then '*' else '\n')) :=
    rfl
  have hfenceF : (List.range rails.toNat).map (fun (a : Nat) =>
      (List.range t.length).map
        (fun (b : Nat) => if (a : Int) = rowOf rails b
          then t.getD b ' ' else '\n')) = fenceF rails t := rfl
  have hread := readZigzag_upto rails h2 t t.length 0 (by omega)
  rw [show (zigState rails 0).1 = 0 from rfl,
    show (zigState rails 0).2 = 1 from rfl] at hread
  rw [show ((0 : Nat) : Int) = (0 : Int) from rfl] at hread
  rw [List.drop_zero] at hread
  simp only [decrypt, hstrip, hlen, hmark]
  rw [hsegs, hfenceM, hfill, hfenceF, hread]

/-- For `rails ≥ 2` and a space-free text, `decrypt` inverts
`encrypt`. -/
lemma round_trip (rails : Int) (h2 : 2 ≤ rails) (t : List Char)
    (ht : ' ' ∉ t) :
    ∃ ct, encrypt t rails = some ct ∧ decrypt ct rails = some t := by
  refine ⟨((List.range rails.toNat).map (rowSeg rails t)).flatten, ?_, ?_⟩
  · have h := encrypt_eq_readRows_fenceE rails h2 t
    rw [stripSpaces_eq_self ht, readRows_fenceE] at h
    exact h
  · exact decrypt_flattenSegs rails h2 t ht

/-- Inversion for a successful `pySet2`. -/
lemma pySet2_eq_some {α : Type} {m : List (List α)} {i j : Int} {x : α}
    {m' : List (List α)} (h : pySet2 m i j x = some m') :
    ∃ k row l, m[k]? = some row ∧ m' = m.set k (row.set l x) := by
  simp only [pySet2] at h
  split at h
  · cases h
  · rename_i k hk
    split at h
    · cases h
    · rename_i row hrow
      split at h
      · cases h
      · rename_i l hl
        exact ⟨k, row, l, hrow, (Option.some.injEq _ _).mp h.symm⟩

/-- Inversion for a successful `encrypt`. -/
lemma encrypt_eq_some {text : List Char} {rails : Int} {s : List Char}
    (h : encrypt text rails = some s) :
    ∃ fence', fillEncrypt rails (stripSpaces text) 0 0 1
      (List.replicate rails.toNat
        (List.replicate (stripSpaces text).length (none : Option Char))) =
      some fence' ∧ s = readRows fence' := by
  simp only [encrypt] at h
  split at h
  · cases h
  · rename_i fence' hf
    exact ⟨fence', hf, ((Option.some.injEq _ _).mp h).symm⟩

/-- Every `some` cell of the fence produced by the placement loop holds
either a cell already present or one of the remaining characters. -/
lemma fillEncrypt_cells (rails : Int) (A : Char → Prop) :
    ∀ (cs : List Char) (col rail dir : Int)
      (fence fence' : List (List (Option Char))),
    fillEncrypt rails cs col rail dir fence = some fence' →
    (∀ row ∈ fence, ∀ x ∈ row, ∀ ch, x = some ch → A ch) →
    (∀ ch ∈ cs, A ch) →
    (∀ row ∈ fence', ∀ x ∈ row, ∀ ch, x = some ch → A ch) := by
  intro cs
  induction cs with
  | nil =>
    intro col rail dir fence fence' h hfence _
    simp only [fillEncrypt] at h
    rw [← (Option.some.injEq _ _).mp h]
    exact hfence
  | cons ch cs ih =>
    intro col rail dir fence fence' h hfence hcs
    simp only [fillEncrypt] at h
    split at h
    · cases h
    · rename_i f2 hf2
      obtain ⟨k, row, l, hrow, hset⟩ := pySet2_eq_some hf2
      have hrowmem : row ∈ fence := by
        obtain ⟨hk, hval⟩ := List.getElem?_eq_some.mp hrow
        rw [← hval]
        exact List.getElem_mem hk
      have hf2cells : ∀ r ∈ f2, ∀ x ∈ r, ∀ c, x = some c → A c := by
        subst hset
        intro r hr x hx c hxc
        rcases List.mem_or_eq_of_mem_set hr with hr | hr
        · exact hfence r hr x hx c hxc
        · subst hr
          rcases List.mem_or_eq_of_mem_set hx with hx | hx
          · exact hfence row hrowmem x hx c hxc
          · subst hx
            cases hxc
            exact hcs ch (List.mem_cons_self ch cs)
      exact ih _ _ _ f2 fence' h hf2cells
        (fun c hc => hcs c (List.mem_cons_of_mem ch hc))

lemma mem_readRows {a : Char} {f : List (List (Option Char))}
    (h : a ∈ readRows f) : ∃ row ∈ f, some a ∈ row := by
  rw [readRows, List.mem_flatten] at h
  obtain ⟨l, hl, hal⟩ := h
  rw [List.mem_map] at hl
  obtain ⟨row, hrow, rfl⟩ := hl
  rw [List.mem_filterMap] at hal
  obtain ⟨x, hx, hid⟩ := hal
  exact ⟨row, hrow, by rwa [show x = some a from hid] at hx⟩

/-- Whenever `encrypt` returns, the result contains no space. -/
lemma encrypt_no_space {text : List Char} {rails : Int} {s : List Char}
    (h : encrypt text rails = some s) : ' ' ∉ s := by
  obtain ⟨fence', hfill, rfl⟩ := encrypt_eq_some h
  intro hsp
  obtain ⟨row, hrow, hcell⟩ := mem_readRows hsp
  have hinit : ∀ r ∈ List.replicate rails.toNat
      (List.replicate (stripSpaces text).length (none : Option Char)),
      ∀ x ∈ r, ∀ c, x = some c → c ≠ ' ' := by
    intro r hr x hx c hxc
    rw [List.eq_of_mem_replicate hr] at hx
    rw [List.eq_of_mem_replicate hx] at hxc
    cases hxc
  have := fillEncrypt_cells rails (fun c => c ≠ ' ') (stripSpaces text)
    0 0 1 _ fence' hfill hinit
    (fun c hc => by
      rw [stripSpaces, List.mem_filter] at hc
      simpa using hc.2)
    row hrow (some ' ') hcell ' ' rfl
  exact this rfl

lemma fillCells_fst_length :
    ∀ (row rest : List Char), (fillCells row rest).1.length = row.length := by
  intro row
  induction row with
  | nil => intro rest; rfl
  | cons c cs ih =>
    intro rest
    by_cases h : c = '*'
    · cases rest with
      | nil => simp [fillCells, h, ih]
      | cons r rs => simp [fillCells, h, ih]
    · simp [fillCells, h, ih]

lemma fillFence_shape (n : Nat) :
    ∀ (rows : List (List Char)) (rest : List Char),
    (∀ r ∈ rows, r.length = n) →
    (fillFence rows rest).length = rows.length ∧
      ∀ r ∈ fillFence rows rest, r.length = n := by
  intro rows
  induction rows with
  | nil =>
    intro rest _
    exact ⟨rfl, by intro r hr; cases hr⟩
  | cons row rows ih =>
    intro rest hlen
    obtain ⟨ih1, ih2⟩ := ih (fillCells row rest).2
      (fun r hr => hlen r (List.mem_cons_of_mem row hr))
    constructor
    · simp [fillFence, ih1]
    · intro r hr
      simp only [fillFence, List.mem_cons] at hr
      rcases hr with hr | hr
      · rw [hr, fillCells_fst_length]
        exact hlen row (List.mem_cons_self row rows)
      · exact ih2 r hr

lemma pyGet2_some_of_shape {α : Type} (m : List (List α)) (R N : Nat)
    (hm : m.length = R) (hrows : ∀ r ∈ m, r.length = N)
    (i : Int) (j : Nat) (hi0 : 0 ≤ i) (hiR : i < (R : Int)) (hj : j < N) :
    ∃ x, pyGet2 m i (j : Int) = some x := by
  have hkR : i.toNat < m.length := by omega
  have h1 : pyIdx m.length i = some i.toNat := by
    rw [hm]
    exact pyIdx_in_range R i hi0 (by omega)
  have h2 : m[i.toNat]? = some m[i.toNat] := List.getElem?_eq_getElem hkR
  have hrowlen : m[i.toNat].length = N :=
    hrows _ (List.getElem_mem hkR)
  have h3 : pyIdx m[i.toNat].length (j : Int) = some j := by
    rw [hrowlen]
    rw [pyIdx_in_range N (j : Int) (Int.natCast_nonneg j) (by omega)]
    simp
  refine ⟨m[i.toNat][j], ?_⟩
  simp only [pyGet2, h1, h2, h3]
  exact List.getElem?_eq_getElem (by omega)

lemma readZigzag_some (rails : Int) (h2 : 2 ≤ rails)
    (m : List (List Char)) (N : Nat)
    (hm : m.length = rails.toNat) (hrows : ∀ r ∈ m, r.length = N) :
    ∀ (cnt c : Nat), c + cnt = N →
    ∃ out, readZigzag rails cnt (c : Int) (zigState rails c).1
      (zigState rails c).2 m = some out := by
  intro cnt
  induction cnt with
  | zero =>
    intro c _
    exact ⟨[], rfl⟩
  | succ k ih =>
    intro c hc
    have hrow0 : 0 ≤ (zigState rails c).1 := (zigState_inv rails h2 c).1
    have hrowR : (zigState rails c).1 < ((rails.toNat : Nat) : Int) := by
      have h := (zigState_inv rails h2 c).2.1
      have hcast : ((rails.toNat : Nat) : Int) = rails :=
        Int.toNat_of_nonneg (by omega)
      omega
    obtain ⟨x, hx⟩ := pyGet2_some_of_shape m rails.toNat N hm hrows
      ((zigState rails c).1) c hrow0 hrowR (by omega)
    obtain ⟨out, hout⟩ := ih (c + 1) (by omega)
    have hstep : (zigState rails c).1 + newDir rails (zigState rails c).1
        (zigState rails c).2 = (zigState rails (c + 1)).1 := by
      rw [zigState_succ, zigStep_fst]
    have hstep2 : newDir rails (zigState rails c).1 (zigState rails c).2 =
        (zigState rails (c + 1)).2 := by
      rw [zigState_succ, zigStep_snd]
    have hcol : ((c : Int) + 1) = ((c + 1 : Nat) : Int) := by push_cast; ring
    refine ⟨x :: out, ?_⟩
    simp only [readZigzag, hx]
    rw [hstep, hstep2, hcol, hout]

/-- The complete marking pass, started from the all-`'\n'` fence. -/
lemma markZigzag_full (rails : Int) (h2 : 2 ≤ rails) (n : Nat) :
    markZigzag rails n 0 0 1
      (List.replicate rails.toNat (List.replicate n '\n')) =
      some (fenceM rails n) := by
  have hmark := markZigzag_upto rails h2 n n 0 (by omega)
  rw [fenceMUpto_zero] at hmark
  rw [show (zigState rails 0).1 = 0 from rfl,
    show (zigState rails 0).2 = 1 from rfl] at hmark
  rw [show ((0 : Nat) : Int) = (0 : Int) from rfl] at hmark
  rw [Nat.zero_add, fenceMUpto_full] at hmark
  exact hmark

/-- The complete placement pass, started from the empty fence. -/
lemma fillEncrypt_full (rails : Int) (h2 : 2 ≤ rails) (t : List Char) :
    fillEncrypt rails t 0 0 1
      (List.replicate rails.toNat
        (List.replicate t.length (none : Option Char))) =
      some (fenceE rails t) := by
  have h := fillEncrypt_upto rails h2 t t 0 rfl
  rw [fenceEUpto_zero] at h
  rw [show (zigState rails 0).1 = 0 from rfl,
    show (zigState rails 0).2 = 1 from rfl] at h
  rw [show ((0 : Nat) : Int) = (0 : Int) from rfl] at h
  rw [Nat.zero_add, fenceEUpto_full] at h
  exact h

/-- For `rails ≥ 2`, `decrypt` always returns a result. -/
lemma decrypt_isSome (rails : Int) (h2 : 2 ≤ rails) (ct : List Char) :
    ∃ u, decrypt ct rails = some u := by
  have hmark := markZigzag_full rails h2 (stripSpaces ct).length
  have hMlen : (fenceM rails (stripSpaces ct).length).length = rails.toNat := by
    simp [fenceM]
  have hMrows : ∀ r ∈ fenceM rails (stripSpaces ct).length,
      r.length = (stripSpaces ct).length := by
    intro r hr
    rw [fenceM, List.mem_map] at hr
    obtain ⟨a, _, rfl⟩ := hr
    simp
  obtain ⟨hflen, hfrows⟩ := fillFence_shape (stripSpaces ct).length
    (fenceM rails (stripSpaces ct).length) (stripSpaces ct) hMrows
  obtain ⟨out, hout⟩ := readZigzag_some rails h2
    (fillFence (fenceM rails (stripSpaces ct).length) (stripSpaces ct))
    (stripSpaces ct).length (by rw [hflen, hMlen]) hfrows
    (stripSpaces ct).length 0 (by omega)
  rw [show (zigState rails 0).1 = 0 from rfl,
    show (zigState rails 0).2 = 1 from rfl] at hout
  rw [show ((0 : Nat) : Int) = (0 : Int) from rfl] at hout
  refine ⟨out, ?_⟩
  simp only [decrypt, hmark, hout]

/-- For `rails ≥ 2`, `encrypt` always returns a result. -/
lemma encrypt_isSome (rails : Int) (h2 : 2 ≤ rails) (text : List Char) :
    ∃ s, encrypt text rails = some s :=
  ⟨_, encrypt_eq_readRows_fenceE rails h2 text⟩

end RailFenceCipher



namespace RailFenceCipher

lemma readZigzag_full (rails : Int) (h2 : 2 ≤ rails) (t : List Char) :
    readZigzag rails t.length 0 0 1 (fenceF rails t) = some t := by
  have h := readZigzag_upto rails h2 t t.length 0 (by omega)
  rw [show (zigState rails 0).1 = 0 from rfl,
    show (zigState rails 0).2 = 1 from rfl] at h
  rw [show ((0 : Nat) : Int) = (0 : Int) from rfl] at h
  rw [List.drop_zero] at h
  exact h

lemma encrypt_strip (text : List Char) (rails : Int) :
    encrypt text rails = encrypt (stripSpaces text) rails := by
  simp only [encrypt, stripSpaces_idem]

end RailFenceCipher

/-! ## Claim theorems -/

namespace RailFenceCipher

/-- C1 (counterexample): as stated over all `rails ≥ 1`, the round-trip
law fails at `rails = 1`, text `"AB"`: `encrypt` raises `IndexError`
(modelled as `none`), so the composition does not return the text. -/
theorem c1_counterexample :
    ¬ ((encrypt ("AB".toList) 1).bind (fun ct => decrypt ct 1) =
      some ("AB".toList)) := by
  decide

/-- C1 (amended to `rails ≥ 2`): for every `rails ≥ 2` and every text
without spaces, `decrypt (encrypt t rails) rails = t`. -/
theorem c1_round_trip (t : List Char) (rails : Int)
    (h2 : 2 ≤ rails) (ht : ' ' ∉ t) :
    (encrypt t rails).bind (fun ct => decrypt ct rails) = some t := by
  obtain ⟨ct, h1, h2'⟩ := round_trip rails h2 t ht
  rw [h1]
  exact h2'

/-- C1 witness: the round trip at `rails = 3`, `t = "HELLOWORLD"`. -/
theorem c1_witness :
    (encrypt ("HELLOWORLD".toList) 3).bind (fun ct => decrypt ct 3) =
      some ("HELLOWORLD".toList) :=
  c1_round_trip ("HELLOWORLD".toList) 3 (by decide) (by decide)

/-- C2: for `rails ≥ 2`, the rail visited at column `c` is the
triangle wave `f(c) = m` if `m < rails` else `2(rails-1) - m` with
`m = c mod (2 rails - 2)`; `encrypt`'s placement loop writes `t[c]`
into row `rowOf c` of the fence (`fenceE`), `decrypt`'s marking pass
marks exactly the cells `(rowOf c, c)` (`fenceM`), and `decrypt`'s
read-out pass walks the same rows (`fenceF`). -/
theorem c2_triangle_wave (rails : Int) (h2 : 2 ≤ rails) :
    (∀ c : Nat, rowOf rails c = zigzagFormula rails c) ∧
    (∀ t : List Char, fillEncrypt rails t 0 0 1
      (List.replicate rails.toNat
        (List.replicate t.length (none : Option Char))) =
      some (fenceE rails t)) ∧
    (∀ n : Nat, markZigzag rails n 0 0 1
      (List.replicate rails.toNat (List.replicate n '\n')) =
      some (fenceM rails n)) ∧
    (∀ t : List Char,
      readZigzag rails t.length 0 0 1 (fenceF rails t) = some t) :=
  ⟨rowOf_eq_zigzagFormula rails h2, fillEncrypt_full rails h2,
    markZigzag_full rails h2, readZigzag_full rails h2⟩

/-- C2 witness: the closed form at `rails = 3`, column 5. -/
theorem c2_witness : rowOf 3 5 = zigzagFormula 3 5 :=
  (c2_triangle_wave 3 (by decide)).1 5

/-- C3 (code bug): the spec promises `encrypt(text, 1) = text`, but at
`rails = 1` the direction never flips (the `rail == 0` branch wins), the
cursor leaves the fence, and `encrypt` raises `IndexError` for any text
of length ≥ 2 — here `"HI"`. -/
theorem c3_rails_one_crash : encrypt ("HI".toList) 1 = none := by
  decide

/-- C4 (code bug): there is no key validation; for `rails ≤ 0` and a
non-empty text `encrypt` crashes with `IndexError` while writing the
fence instead of raising a named invalid-key error first. -/
theorem c4_invalid_rails_crash :
    encrypt ("A".toList) 0 = none ∧ encrypt ("A".toList) (-3) = none := by
  decide

/-- C5 (counterexample): as stated over all `rails ≥ 1`, the
permutation invariant fails at `rails = 1`, text `"ABC"`: `encrypt`
crashes, so there is no output at all. -/
theorem c5_counterexample :
    ¬ ∃ s, encrypt ("ABC".toList) 1 = some s ∧
      (↑s : Multiset Char) = (↑(stripSpaces ("ABC".toList)) : Multiset Char) ∧
      s.length = (stripSpaces ("ABC".toList)).length := by
  rintro ⟨s, hs, -, -⟩
  have hnone : encrypt ("ABC".toList) 1 = none := by decide
  rw [hnone] at hs
  cases hs

/-- C5 (amended to `rails ≥ 2`): the output of `encrypt` is a
permutation of the space-stripped input — same character multiset,
same length. -/
theorem c5_permutation (text : List Char) (rails : Int) (h2 : 2 ≤ rails) :
    ∃ s, encrypt text rails = some s ∧
      (↑s : Multiset Char) =
        (↑(stripSpaces text) : Multiset Char) ∧
      s.length = (stripSpaces text).length := by
  refine ⟨readRows (fenceE rails (stripSpaces text)),
    encrypt_eq_readRows_fenceE rails h2 text, ?_, ?_⟩
  · rw [readRows_fenceE]
    exact Multiset.coe_eq_coe.mpr
      (flatten_rowSeg_perm rails h2 (stripSpaces text))
  · rw [readRows_fenceE]
    exact (flatten_rowSeg_perm rails h2 (stripSpaces text)).length_eq

/-- C5 witness: the permutation invariant at `rails = 4`,
text `"RAIL FENCE"`. -/
theorem c5_witness :
    ∃ s, encrypt ("RAIL FENCE".toList) 4 = some s ∧
      (↑s : Multiset Char) =
        (↑(stripSpaces ("RAIL FENCE".toList)) : Multiset Char) ∧
      s.length = (stripSpaces ("RAIL FENCE".toList)).length :=
  c5_permutation ("RAIL FENCE".toList) 4 (by decide)

/-- C6: the example vector — `encrypt("HELLOWORLD", 3)` is the
row-major zigzag read-off `"HOLELWRDLO"`, and `decrypt` reverses it. -/
theorem c6_example_vector :
    encrypt ("HELLOWORLD".toList) 3 = some ("HOLELWRDLO".toList) ∧
    decrypt ("HOLELWRDLO".toList) 3 = some ("HELLOWORLD".toList) := by
  decide

/-- C7: `encrypt` strips spaces first — encrypting a text and
encrypting its space-stripped form agree for every `rails`, and any
returned output contains no space character. -/
theorem c7_space_stripping (text : List Char) (rails : Int)
    (s : List Char) :
    encrypt text rails = encrypt (stripSpaces text) rails ∧
    (encrypt text rails = some s → ' ' ∉ s) :=
  ⟨encrypt_strip text rails, fun h => encrypt_no_space h⟩

/-- C7 witness: at `text = "A B C"`, `rails = 2` the output is
`"ACB"`, which contains no space. -/
theorem c7_witness : ' ' ∉ ("ACB".toList) :=
  (c7_space_stripping ("A B C".toList) 2 ("ACB".toList)).2 (by decide)

/-- C8: `transform` dispatches to `encrypt` when the flag is true and
to `decrypt` when it is false. -/
theorem c8_transform_dispatch (text : List Char) (rails : Int) :
    transform text rails true = encrypt text rails ∧
    transform text rails false = decrypt text rails :=
  ⟨rfl, rfl⟩

/-- C9: purity/determinism — in any two sequences of `transform`
calls, a call with the same arguments at the same position returns the
same result, regardless of all other calls in either sequence. -/
theorem c9_purity (calls₁ calls₂ : List CallArgs) (i : Nat)
    (h : calls₁[i]? = calls₂[i]?) :
    (runBatch calls₁)[i]? = (runBatch calls₂)[i]? := by
  simp only [runBatch, List.getElem?_map, h]

/-- C9 witness: the same call embedded in two different batches
returns the same result. -/
theorem c9_witness :
    (runBatch [⟨"X".toList, 1, true⟩, ⟨"AB".toList, 2, true⟩])[1]? =
      (runBatch [⟨"Y Z".toList, 3, false⟩, ⟨"AB".toList, 2, true⟩,
        ⟨"Q".toList, 0, false⟩])[1]? :=
  c9_purity _ _ 1 (by rfl)

/-- C10: for `rails ≥ 2` the zigzag cursor stays within
`[0, rails - 1]`, so every fence access in `encrypt` and `decrypt` is
in bounds and both functions return a result (the `IndexError`
branches, modelled by `none`, are unreachable). -/
theorem c10_in_bounds (rails : Int) (t : List Char) (h2 : 2 ≤ rails) :
    (∀ c : Nat, 0 ≤ rowOf rails c ∧ rowOf rails c < rails) ∧
    (∃ s, encrypt t rails = some s) ∧
    (∃ u, decrypt t rails = some u) :=
  ⟨fun c => rowOf_bounds rails h2 c, encrypt_isSome rails h2 t,
    decrypt_isSome rails h2 t⟩

/-- C10 witness: in-bounds execution at `rails = 2`, `t = "AB"`. -/
theorem c10_witness :
    (∀ c : Nat, 0 ≤ rowOf 2 c ∧ rowOf 2 c < 2) ∧
    (∃ s, encrypt ("AB".toList) 2 = some s) ∧
    (∃ u, decrypt ("AB".toList) 2 = some u) :=
  c10_in_bounds 2 ("AB".toList) (by decide)

end RailFenceCipher
